import Mathlib

/-!
Verification of the `droplet` normalized object pool (src/index.ts).

The pool flattens JSON-shaped object graphs into a flat table keyed by the
derived identity string "type:id", replacing identifiable nested objects with
reference markers, and denormalizes stored entities back into nested values.

Modelling choices (shallow embedding of the TypeScript source):
* Raw JSON input is a graph: scalar leaves, plus `node` handles into a finite
  heap of array/object nodes.  Two occurrences of the same handle model the
  same raw JavaScript object appearing twice, which is what the write-time
  `visited` set (a JS `Set` keyed on object identity) detects.
* Stored pool values and resolved output values share one tree type `Val`;
  a reference marker is, exactly as in the source, an object whose `__ref`
  field is a string.  Resolved output may contain `ent i` pointers into an
  arena of per-ref result objects, modelling the shared, in-place mutated
  placeholder objects of `resolvePoolObject`.
* Recursion in the source terminates via the visited set (write) and the
  resolution cache (read); the embedding uses an explicit depth budget
  (`fuel`), and we prove that the canonical budgets used by `write` and
  `read` are always sufficient, so the budget is never observable.
-/

namespace Droplet

/-- Association-list lookup by decidable key equality (models JS property /
`Map.get` access; first binding wins, as duplicate keys cannot arise in JS). -/
def alook {κ α : Type} [DecidableEq κ] (k : κ) : List (κ × α) → Option α
  | [] => none
  | (k', v) :: rest => if k' = k then some v else alook k rest

/-- Association-list update (models `Map.set`): replace the first binding of
the key in place, or append a new binding. -/
def aset {κ α : Type} [DecidableEq κ] (k : κ) (v : α) : List (κ × α) → List (κ × α)
  | [] => [(k, v)]
  | (k', v') :: rest => if k' = k then (k, v) :: rest else (k', v') :: aset k v rest

/-- Boolean membership test (models `Set.has`). -/
def elemK {κ : Type} [DecidableEq κ] (k : κ) : List κ → Bool
  | [] => false
  | k' :: rest => if k' = k then true else elemK k rest

/-- `Set.add` on a ref set kept in insertion order. -/
def addRef (r : String) (refs : List String) : List String :=
  if elemK r refs then refs else refs ++ [r]

/-- The `__ref` key of reference-marker objects (REF_LABEL in the source). -/
def REF_LABEL : String := "__ref"

/-- The `__type` key carrying the type label (TYPE_LABEL in the source). -/
def TYPE_LABEL : String := "__type"

/-- Pool values and resolved JSON values.  Scalars, arrays and inline
mappings are as in the source's `PoolAny`/`JSONValue`; `ent i` is a pointer
to the shared result object in slot `i` of a resolution arena, which is how
the identity-shared `acc` objects of `resolvePoolObject` are modelled. -/
inductive Val where
  | str (s : String)
  | num (n : Int)
  | bool (b : Bool)
  | null
  | undefined
  | arr (elems : List Val)
  | obj (fields : List (String × Val))
  | ent (i : Nat)

/-- A stored pool entity: last-write generation plus normalized fields. -/
structure PoolObject where
  updatedAt : Nat
  fields : List (String × Val)

/-- The pool: backing store, generation counter, listener registry.
Listeners are opaque callback tokens (`Nat`); invoking one is modelled by
emitting an invocation event. -/
structure Pool where
  backing : List (String × PoolObject)
  generation : Nat
  listeners : List (String × List Nat)

/-- A raw JSON input value: a scalar, or a handle into the input heap.
Handles model JavaScript object identity — the `visited` cycle check of
`updateValue` compares raw objects, not contents. -/
inductive JVal where
  | str (s : String)
  | num (n : Int)
  | bool (b : Bool)
  | null
  | undefined
  | node (n : Nat)
deriving DecidableEq, Repr

/-- Contents of a raw heap node: an array or a plain object. -/
inductive HNode where
  | arr (elems : List JVal)
  | obj (fields : List (String × JVal))
deriving DecidableEq, Repr

/-- The raw input heap for one `write` call. -/
abbrev Heap := List (Nat × HNode)

/-- Errors of the embedding: `cyclic` is the source's "Cyclic reference
detected" throw; `gas` marks an exhausted depth budget (proved unreachable
for the canonical budgets). -/
inductive Err where
  | cyclic
  | gas
deriving DecidableEq, Repr

/-- Mutable state threaded through one `write` call: the visited set of raw
nodes, the touched ref set, and the backing store. -/
structure WSt where
  visited : List Nat
  references : List String
  backing : List (String × PoolObject)

/-- `identify`: derive `"type:id"` from the `id` and `__type` fields, when
`id` is a string or number and `__type` is a string. -/
def identify (kvs : List (String × JVal)) : Option String :=
  match alook "id" kvs, alook TYPE_LABEL kvs with
  | some (.str s), some (.str t) => some (t ++ ":" ++ s)
  | some (.num n), some (.str t) => some (t ++ ":" ++ toString n)
  | _, _ => none

mutual

/-- `updateValue`: normalize one raw value.  Scalars pass through; a node is
checked against the visited set (revisit ⇒ cyclic error), then arrays map
element-wise and objects either become pool entities (when identifiable) or
inline mappings. -/
def updateValue (heap : Heap) (gen : Nat) : Nat → JVal → WSt → Except Err Val × WSt
  | 0, _, st => (.error .gas, st)
  | _ + 1, .str s, st => (.ok (.str s), st)
  | _ + 1, .num n, st => (.ok (.num n), st)
  | _ + 1, .bool b, st => (.ok (.bool b), st)
  | _ + 1, .null, st => (.ok .null, st)
  | _ + 1, .undefined, st => (.ok .undefined, st)
  | fuel + 1, .node n, st =>
    if elemK n st.visited then (.error .cyclic, st)
    else
      let st1 : WSt := { st with visited := n :: st.visited }
      match alook n heap with
      | none => (.ok .undefined, st1)
      | some (.arr l) =>
        match updateList heap gen fuel l st1 with
        | (.ok vs, st2) => (.ok (.arr vs), st2)
        | (.error e, st2) => (.error e, st2)
      | some (.obj kvs) =>
        match identify kvs with
        | some ref => updatePoolObject heap gen fuel kvs ref st1
        | none =>
          match updateFields heap gen fuel kvs st1 with
          | (.ok out, st2) => (.ok (.obj out), st2)
          | (.error e, st2) => (.error e, st2)
termination_by structural fuel _v _st => fuel

/-- Element-wise normalization of an array (the source's `arrayMap`). -/
def updateList (heap : Heap) (gen : Nat) : Nat → List JVal → WSt → Except Err (List Val) × WSt
  | 0, _, st => (.error .gas, st)
  | _ + 1, [], st => (.ok [], st)
  | fuel + 1, v :: vs, st =>
    match updateValue heap gen fuel v st with
    | (.ok v', st1) =>
      match updateList heap gen fuel vs st1 with
      | (.ok vs', st2) => (.ok (v' :: vs'), st2)
      | (.error e, st2) => (.error e, st2)
    | (.error e, st1) => (.error e, st1)
termination_by structural fuel _vs _st => fuel

/-- Field-wise normalization of an object (the source's `objectMap`). -/
def updateFields (heap : Heap) (gen : Nat) : Nat → List (String × JVal) → WSt → Except Err (List (String × Val)) × WSt
  | 0, _, st => (.error .gas, st)
  | _ + 1, [], st => (.ok [], st)
  | fuel + 1, (k, v) :: kvs, st =>
    match updateValue heap gen fuel v st with
    | (.ok v', st1) =>
      match updateFields heap gen fuel kvs st1 with
      | (.ok kvs', st2) => (.ok ((k, v') :: kvs'), st2)
      | (.error e, st2) => (.error e, st2)
    | (.error e, st1) => (.error e, st1)
termination_by structural fuel _kvs _st => fuel

/-- `updatePoolObject`: record the touched ref, normalize all incoming
fields, shallow-merge them (JS spread semantics) over the existing entity's
fields, store the result stamped with the current generation, and hand back
a reference marker. -/
def updatePoolObject (heap : Heap) (gen : Nat) : Nat → List (String × JVal) → String → WSt → Except Err Val × WSt
  | 0, _, _, st => (.error .gas, st)
  | fuel + 1, kvs, ref, st =>
    let st1 : WSt := { st with references := addRef ref st.references }
    let existing := alook ref st1.backing
    match updateFields heap gen fuel kvs st1 with
    | (.ok newFields, st2) =>
      let oldFields := match existing with
        | some po => po.fields
        | none => []
      let fields := oldFields.map (fun kv => (kv.1,
          match alook kv.1 newFields with
          | some v => v
          | none => kv.2))
        ++ newFields.filter (fun kv => (alook kv.1 oldFields).isNone)
      (.ok (.obj [(REF_LABEL, .str ref)]),
        { st2 with backing := aset ref ⟨gen, fields⟩ st2.backing })
    | (.error e, st2) => (.error e, st2)
termination_by structural fuel _kvs _ref _st => fuel

end

/-- Resolution state of one `read`/notification pass: the cache mapping a
ref to its arena slot (the source's `stack : Map<string, JSONObject>`), and
the arena of per-ref result objects (the shared `acc` objects, mutated in
place as resolution proceeds). -/
structure RSt where
  stack : List (String × Nat)
  arena : List (List (String × Val))

mutual

/-- `resolveValue`: denormalize one stored pool value.  Scalars pass
through; arrays map element-wise; an object whose `__ref` field is a string
is treated as a reference marker and resolved through the pool, falling back
to ordinary field-wise resolution when the target is absent. -/
def resolveValue (backing : List (String × PoolObject)) : Nat → Val → RSt → Except Err Val × RSt
  | 0, _, st => (.error .gas, st)
  | _ + 1, .str s, st => (.ok (.str s), st)
  | _ + 1, .num n, st => (.ok (.num n), st)
  | _ + 1, .bool b, st => (.ok (.bool b), st)
  | _ + 1, .null, st => (.ok .null, st)
  | _ + 1, .undefined, st => (.ok .undefined, st)
  | _ + 1, .ent i, st => (.ok (.ent i), st)
  | fuel + 1, .arr l, st =>
    match resolveList backing fuel l st with
    | (.ok vs, st2) => (.ok (.arr vs), st2)
    | (.error e, st2) => (.error e, st2)
  | fuel + 1, .obj kvs, st =>
    match alook REF_LABEL kvs with
    | some (.str r) =>
      match resolvePoolObject backing fuel r st with
      | (.ok (some m), st2) => (.ok m, st2)
      | (.ok none, st2) =>
        match resolveFields backing fuel kvs st2 with
        | (.ok out, st3) => (.ok (.obj out), st3)
        | (.error e, st3) => (.error e, st3)
      | (.error e, st2) => (.error e, st2)
    | _ =>
      match resolveFields backing fuel kvs st with
      | (.ok out, st2) => (.ok (.obj out), st2)
      | (.error e, st2) => (.error e, st2)
termination_by structural fuel _v _st => fuel

/-- Element-wise resolution of a stored array. -/
def resolveList (backing : List (String × PoolObject)) : Nat → List Val → RSt → Except Err (List Val) × RSt
  | 0, _, st => (.error .gas, st)
  | _ + 1, [], st => (.ok [], st)
  | fuel + 1, v :: vs, st =>
    match resolveValue backing fuel v st with
    | (.ok v', st1) =>
      match resolveList backing fuel vs st1 with
      | (.ok vs', st2) => (.ok (v' :: vs'), st2)
      | (.error e, st2) => (.error e, st2)
    | (.error e, st1) => (.error e, st1)
termination_by structural fuel _vs _st => fuel

/-- Field-wise resolution of a stored mapping. -/
def resolveFields (backing : List (String × PoolObject)) : Nat → List (String × Val) → RSt → Except Err (List (String × Val)) × RSt
  | 0, _, st => (.error .gas, st)
  | _ + 1, [], st => (.ok [], st)
  | fuel + 1, (k, v) :: kvs, st =>
    match resolveValue backing fuel v st with
    | (.ok v', st1) =>
      match resolveFields backing fuel kvs st1 with
      | (.ok kvs', st2) => (.ok ((k, v') :: kvs'), st2)
      | (.error e, st2) => (.error e, st2)
    | (.error e, st1) => (.error e, st1)
termination_by structural fuel _kvs _st => fuel

/-- `resolvePoolObject`: deliver the cached placeholder on a cache hit;
return missing (`none`) when the ref has no entity; otherwise register an
empty placeholder in the cache before resolving the entity's fields, then
fill the placeholder with the resolved fields. -/
def resolvePoolObject (backing : List (String × PoolObject)) : Nat → String → RSt → Except Err (Option Val) × RSt
  | 0, _, st => (.error .gas, st)
  | fuel + 1, ref, st =>
    match alook ref st.stack with
    | some i => (.ok (some (.ent i)), st)
    | none =>
      match alook ref backing with
      | none => (.ok none, st)
      | some po =>
        let i := st.arena.length
        let st1 : RSt := ⟨(ref, i) :: st.stack, st.arena ++ [[]]⟩
        match resolveFields backing fuel po.fields st1 with
        | (.ok out, st2) => (.ok (some (.ent i)), ⟨st2.stack, st2.arena.set i out⟩)
        | (.error e, st2) => (.error e, st2)
termination_by structural fuel _ref _st => fuel

end

mutual

/-- Depth-budget size of a stored pool value. -/
def sizeV : Val → Nat
  | .str _ => 1
  | .num _ => 1
  | .bool _ => 1
  | .null => 1
  | .undefined => 1
  | .ent _ => 1
  | .arr l => 2 + sizeVL l
  | .obj kvs => 3 + sizeFL kvs

/-- Depth-budget size of a list of pool values. -/
def sizeVL : List Val → Nat
  | [] => 0
  | v :: vs => 1 + sizeV v + sizeVL vs

/-- Depth-budget size of the values of a field list. -/
def sizeFL : List (String × Val) → Nat
  | [] => 0
  | (_, v) :: kvs => 1 + sizeV v + sizeFL kvs

end

/-- Weight of the backing entries whose ref is not yet in the resolution
cache: an upper bound on the extra resolution depth they can contribute. -/
def backingWeight (backing : List (String × PoolObject)) (stack : List (String × Nat)) : Nat :=
  match backing with
  | [] => 0
  | (r, po) :: rest =>
    (if (alook r stack).isNone then 2 + sizeFL po.fields else 0) + backingWeight rest stack

/-- The child values of a raw heap node, in traversal order. -/
def childVals : HNode → List JVal
  | .arr l => l
  | .obj kvs => kvs.map Prod.snd

/-- Weight of the heap nodes not yet visited: an upper bound on the extra
normalization depth they can contribute. -/
def heapWeight (heap : Heap) (visited : List Nat) : Nat :=
  match heap with
  | [] => 0
  | (n, c) :: rest =>
    (if elemK n visited then 0 else 3 + 2 * (childVals c).length) + heapWeight rest visited

/-- Canonical depth budget for one `write` call: always sufficient. -/
def writeFuel (heap : Heap) : Nat := heapWeight heap [] + 2

/-- Canonical depth budget for one resolution pass: always sufficient. -/
def poolFuel (pool : Pool) : Nat := backingWeight pool.backing [] + 1

/-- The loop body of `write`: normalize each root item of the batch in turn,
threading the visited set, touched refs and backing store. -/
def updateItems (heap : Heap) (gen : Nat) (fuel : Nat) : List JVal → WSt → Except Err Unit × WSt
  | [], st => (.ok (), st)
  | v :: vs, st =>
    match updateValue heap gen fuel v st with
    | (.ok _, st1) => updateItems heap gen fuel vs st1
    | (.error e, st1) => (.error e, st1)

/-- `notify`: for each touched ref, skip it when it has no (or an empty)
listener set; otherwise resolve it against the shared resolution state,
skip the ref when resolution yields missing, and invoke every listener with
the resolved value.  Invocations are returned as `(listener, value)` events. -/
def notify (pool : Pool) : List String → RSt → List (Nat × Val) × RSt
  | [], st => ([], st)
  | ref :: rest, st =>
    match alook ref pool.listeners with
    | none => notify pool rest st
    | some ls =>
      if ls.isEmpty then notify pool rest st
      else
        match resolvePoolObject pool.backing (poolFuel pool) ref st with
        | (.ok (some v), st1) =>
          let r := notify pool rest st1
          (ls.map (fun l => (l, v)) ++ r.1, r.2)
        | (.ok none, st1) => notify pool rest st1
        | (.error _, st1) => notify pool rest st1

/-- `write`: normalize the whole batch; on success increment the generation
exactly once and run the notification pass over the touched refs.  On a
cyclic-reference error the backing store keeps whatever was already
committed, the generation is untouched, and no notification happens. -/
def write (heap : Heap) (items : List JVal) (pool : Pool) : Except Err Unit × Pool × List (Nat × Val) :=
  match updateItems heap pool.generation (writeFuel heap) items ⟨[], [], pool.backing⟩ with
  | (.ok _, st) =>
    let pool' : Pool := { pool with backing := st.backing, generation := pool.generation + 1 }
    let r := notify pool' st.references ⟨[], []⟩
    (.ok (), pool', r.1)
  | (.error e, st) => (.error e, { pool with backing := st.backing }, [])

/-- `read`: denormalize the entity at `ref` with a fresh resolution state. -/
def read (pool : Pool) (ref : String) : Except Err (Option Val) × RSt :=
  resolvePoolObject pool.backing (poolFuel pool) ref ⟨[], []⟩

/-- The field mapping produced by `read`, when it returns an entity. -/
def readFields (pool : Pool) (ref : String) : Option (List (String × Val)) :=
  match read pool ref with
  | (.ok (some (.ent i)), st) => st.arena.get? i
  | _ => none

/-- Follow a path (a list of child indices) from a raw value through the
input heap; `some n` means the path ends at raw node `n`.  Two different
paths ending at the same node witness that the same raw object is reachable
twice in one batch. -/
def follow (heap : Heap) : JVal → List Nat → Option Nat
  | .node n, [] => some n
  | .node n, i :: p =>
    match alook n heap with
    | some c =>
      match (childVals c).get? i with
      | some v => follow heap v p
      | none => none
    | none => none
  | _, _ => none

/-! ### Basic lemmas about the association-list helpers -/

theorem elemK_cons_iff {κ : Type} [DecidableEq κ] (k m : κ) (l : List κ) :
    elemK k (m :: l) = true ↔ (m = k ∨ elemK k l = true) := by
  simp only [elemK]
  split
  · simp_all
  · simp_all

theorem elemK_cons_self {κ : Type} [DecidableEq κ] (k : κ) (l : List κ) :
    elemK k (k :: l) = true := by
  simp [elemK]

theorem elemK_cons_of_mem {κ : Type} [DecidableEq κ] {k : κ} {l : List κ} (m : κ)
    (h : elemK k l = true) : elemK k (m :: l) = true := by
  rw [elemK_cons_iff]; exact Or.inr h

theorem elemK_false_of_cons {κ : Type} [DecidableEq κ] {k m : κ} {l : List κ}
    (h : elemK k (m :: l) = false) : elemK k l = false := by
  by_contra hc
  have : elemK k (m :: l) = true := by
    rw [elemK_cons_iff]; exact Or.inr (by revert hc; cases elemK k l <;> simp)
  simp [this] at h

theorem alook_cons_self {κ α : Type} [DecidableEq κ] (k : κ) (v : α) (l : List (κ × α)) :
    alook k ((k, v) :: l) = some v := by
  simp [alook]

theorem alook_cons_ne {κ α : Type} [DecidableEq κ] {k k' : κ} (v : α) (l : List (κ × α))
    (h : k' ≠ k) : alook k ((k', v) :: l) = alook k l := by
  simp [alook, h]

theorem alook_aset_self {κ α : Type} [DecidableEq κ] (k : κ) (v : α) (l : List (κ × α)) :
    alook k (aset k v l) = some v := by
  induction l with
  | nil => simp [aset, alook]
  | cons hd tl ih =>
    obtain ⟨k', v'⟩ := hd
    by_cases h : k' = k
    · subst h; simp [aset, alook]
    · simp [aset, h, alook, ih]

theorem alook_aset_ne {κ α : Type} [DecidableEq κ] {k k2 : κ} (v : α) (l : List (κ × α))
    (h : k2 ≠ k) : alook k2 (aset k v l) = alook k2 l := by
  induction l with
  | nil =>
    have hne : k ≠ k2 := fun he => h he.symm
    simp [aset, alook, hne]
  | cons hd tl ih =>
    obtain ⟨k', v'⟩ := hd
    by_cases hk : k' = k
    · subst hk
      have hne : k' ≠ k2 := fun he => h (he ▸ rfl)
      simp [aset, alook, hne]
    · simp only [aset, hk, if_false]
      by_cases h2 : k' = k2
      · subst h2; simp [alook]
      · simp [alook, h2, ih]

theorem alook_map_snd {κ α β : Type} [DecidableEq κ] (f : α → β) (k : κ) (l : List (κ × α)) :
    alook k (l.map (fun kv => (kv.1, f kv.2))) = (alook k l).map f := by
  induction l with
  | nil => simp [alook]
  | cons hd tl ih =>
    obtain ⟨k', v'⟩ := hd
    by_cases h : k' = k
    · subst h; simp [alook]
    · simp [alook, h, ih]

/-! ### Write-side success lemmas: visited-set monotonicity and path injectivity

When normalization of a value succeeds, every raw node reachable from it was
fresh (not yet visited) and is visited afterwards, and no node is reachable
by two different paths.  This is the heart of the cycle-rejection property:
a doubly-reachable raw node forces the cyclic-reference error. -/

/-- Visited-set monotonicity between two write states. -/
def visMono (st st' : WSt) : Prop :=
  ∀ n, elemK n st.visited = true → elemK n st'.visited = true

theorem visMono_refl (st : WSt) : visMono st st := fun _ h => h

theorem visMono_trans {a b c : WSt} (h1 : visMono a b) (h2 : visMono b c) : visMono a c :=
  fun n h => h2 n (h1 n h)

/-- Success conclusions of `updateValue` about raw-node paths. -/
def valPathOk (heap : Heap) (v : JVal) (st st' : WSt) : Prop :=
  visMono st st' ∧
  (∀ p n, follow heap v p = some n → elemK n st.visited = false ∧ elemK n st'.visited = true) ∧
  (∀ p q n, follow heap v p = some n → follow heap v q = some n → p = q)

/-- Success conclusions of a sequential child-list traversal. -/
def listPathOk (heap : Heap) (vs : List JVal) (st st' : WSt) : Prop :=
  visMono st st' ∧
  (∀ i v p n, vs.get? i = some v → follow heap v p = some n →
    elemK n st.visited = false ∧ elemK n st'.visited = true) ∧
  (∀ i v p j w q n, vs.get? i = some v → vs.get? j = some w →
    follow heap v p = some n → follow heap w q = some n → i = j ∧ p = q)

theorem follow_scalar_str (heap : Heap) (s : String) (p : List Nat) :
    follow heap (.str s) p = none := by cases p <;> rfl

theorem follow_scalar_num (heap : Heap) (n : Int) (p : List Nat) :
    follow heap (.num n) p = none := by cases p <;> rfl

theorem follow_scalar_bool (heap : Heap) (b : Bool) (p : List Nat) :
    follow heap (.bool b) p = none := by cases p <;> rfl

theorem follow_scalar_null (heap : Heap) (p : List Nat) :
    follow heap .null p = none := by cases p <;> rfl

theorem follow_scalar_undefined (heap : Heap) (p : List Nat) :
    follow heap .undefined p = none := by cases p <;> rfl

theorem listPathOk_nil (heap : Heap) (st : WSt) : listPathOk heap [] st st := by
  refine ⟨visMono_refl st, ?_, ?_⟩
  · intro i v p n hi
    simp at hi
  · intro i v p j w q n hi
    simp at hi

theorem listPathOk_congr (heap : Heap) {vs : List JVal} {sta stb st st' : WSt}
    (h : listPathOk heap vs sta stb) (h1 : st.visited = sta.visited)
    (h2 : st'.visited = stb.visited) : listPathOk heap vs st st' := by
  obtain ⟨hm, hf, hi⟩ := h
  refine ⟨?_, ?_, hi⟩
  · intro n hn
    rw [h2]; exact hm n (h1 ▸ hn)
  · intro i v p n hiv hp
    obtain ⟨h3, h4⟩ := hf i v p n hiv hp
    exact ⟨h1 ▸ h3, h2 ▸ h4⟩

theorem valPathOk_scalar (heap : Heap) {v : JVal} (st : WSt)
    (h : ∀ p, follow heap v p = none) : valPathOk heap v st st := by
  refine ⟨visMono_refl st, ?_, ?_⟩
  · intro p n hp
    rw [h p] at hp; cases hp
  · intro p q n hp
    rw [h p] at hp; cases hp

theorem valPathOk_node_miss (heap : Heap) {n : Nat} {st st' : WSt}
    (hfresh : elemK n st.visited = false) (hvis : st'.visited = n :: st.visited)
    (hlook : alook n heap = none) : valPathOk heap (.node n) st st' := by
  refine ⟨?_, ?_, ?_⟩
  · intro m hm
    rw [hvis]; exact elemK_cons_of_mem n hm
  · intro p m hp
    cases p with
    | nil =>
      simp only [follow, Option.some.injEq] at hp
      subst hp
      exact ⟨hfresh, by rw [hvis]; exact elemK_cons_self n st.visited⟩
    | cons i q =>
      simp [follow, hlook] at hp
  · intro p q m hp hq
    cases p with
    | nil =>
      cases q with
      | nil => rfl
      | cons j q' => simp [follow, hlook] at hq
    | cons i p' => simp [follow, hlook] at hp

theorem valPathOk_node (heap : Heap) {n : Nat} {st st1 st' : WSt} {c : HNode}
    (hfresh : elemK n st.visited = false) (hvis : st1.visited = n :: st.visited)
    (hlook : alook n heap = some c)
    (hl : listPathOk heap (childVals c) st1 st') : valPathOk heap (.node n) st st' := by
  obtain ⟨hm, hf, hi⟩ := hl
  have hself : elemK n st1.visited = true := by
    rw [hvis]; exact elemK_cons_self n st.visited
  refine ⟨?_, ?_, ?_⟩
  · intro m hmm
    exact hm m (by rw [hvis]; exact elemK_cons_of_mem n hmm)
  · intro p m hp
    cases p with
    | nil =>
      simp only [follow, Option.some.injEq] at hp
      subst hp
      exact ⟨hfresh, hm n hself⟩
    | cons i q =>
      simp only [follow, hlook] at hp
      rcases hgi : (childVals c).get? i with _ | v
      · simp only [hgi] at hp
        exact Option.noConfusion hp
      · simp only [hgi] at hp
        obtain ⟨h3, h4⟩ := hf i v q m hgi hp
        refine ⟨?_, h4⟩
        have h5 := h3
        rw [hvis] at h5
        exact elemK_false_of_cons h5
  · intro p q m hp hq
    cases p with
    | nil =>
      cases q with
      | nil => rfl
      | cons j q' =>
        simp only [follow, Option.some.injEq] at hp
        subst hp
        simp only [follow, hlook] at hq
        rcases hgj : (childVals c).get? j with _ | w
        · simp only [hgj] at hq
          exact Option.noConfusion hq
        · simp only [hgj] at hq
          obtain ⟨h3, _⟩ := hf j w q' n hgj hq
          rw [hself] at h3; cases h3
    | cons i p' =>
      cases q with
      | nil =>
        simp only [follow, Option.some.injEq] at hq
        subst hq
        simp only [follow, hlook] at hp
        rcases hgi : (childVals c).get? i with _ | v
        · simp only [hgi] at hp
          exact Option.noConfusion hp
        · simp only [hgi] at hp
          obtain ⟨h3, _⟩ := hf i v p' n hgi hp
          rw [hself] at h3; cases h3
      | cons j q' =>
        simp only [follow, hlook] at hp hq
        rcases hgi : (childVals c).get? i with _ | v
        · simp only [hgi] at hp
          exact Option.noConfusion hp
        rcases hgj : (childVals c).get? j with _ | w
        · simp only [hgj] at hq
          exact Option.noConfusion hq
        simp only [hgi] at hp
        simp only [hgj] at hq
        obtain ⟨hij, hpq⟩ := hi i v p' j w q' m hgi hgj hp hq
        rw [hij, hpq]

theorem listPathOk_cons (heap : Heap) {v : JVal} {vs : List JVal} {st st1 st' : WSt}
    (hv : valPathOk heap v st st1) (hvs : listPathOk heap vs st1 st') :
    listPathOk heap (v :: vs) st st' := by
  obtain ⟨vm, vf, vi⟩ := hv
  obtain ⟨lm, lf, li⟩ := hvs
  refine ⟨visMono_trans vm lm, ?_, ?_⟩
  · intro i w p n hi hp
    cases i with
    | zero =>
      simp only [List.get?_cons_zero, Option.some.injEq] at hi
      subst hi
      obtain ⟨h3, h4⟩ := vf p n hp
      exact ⟨h3, lm n h4⟩
    | succ i' =>
      simp only [List.get?_cons_succ] at hi
      obtain ⟨h3, h4⟩ := lf i' w p n hi hp
      refine ⟨?_, h4⟩
      by_contra hc
      have : elemK n st.visited = true := by revert hc; cases elemK n st.visited <;> simp
      rw [vm n this] at h3; cases h3
  · intro i w p j x q n hi hj hp hq
    cases i with
    | zero =>
      simp only [List.get?_cons_zero, Option.some.injEq] at hi
      subst hi
      cases j with
      | zero =>
        simp only [List.get?_cons_zero, Option.some.injEq] at hj
        subst hj
        exact ⟨rfl, vi p q n hp hq⟩
      | succ j' =>
        simp only [List.get?_cons_succ] at hj
        obtain ⟨_, h4⟩ := vf p n hp
        obtain ⟨h5, _⟩ := lf j' x q n hj hq
        rw [h4] at h5; cases h5
    | succ i' =>
      simp only [List.get?_cons_succ] at hi
      cases j with
      | zero =>
        simp only [List.get?_cons_zero, Option.some.injEq] at hj
        subst hj
        obtain ⟨_, h4⟩ := vf q n hq
        obtain ⟨h5, _⟩ := lf i' w p n hi hp
        rw [h4] at h5; cases h5
      | succ j' =>
        simp only [List.get?_cons_succ] at hj
        obtain ⟨hij, hpq⟩ := li i' w p j' x q n hi hj hp hq
        exact ⟨by rw [hij], hpq⟩

/-- Main write-side success pack: whenever normalization succeeds, visited
only grows, every reachable raw node was fresh and becomes visited, and no
raw node is reachable along two different paths. -/
theorem updPack (heap : Heap) (gen : Nat) : ∀ fuel : Nat,
    (∀ v st r st', updateValue heap gen fuel v st = (.ok r, st') → valPathOk heap v st st') ∧
    (∀ vs st r st', updateList heap gen fuel vs st = (.ok r, st') → listPathOk heap vs st st') ∧
    (∀ kvs st r st', updateFields heap gen fuel kvs st = (.ok r, st') →
      listPathOk heap (kvs.map Prod.snd) st st') ∧
    (∀ kvs ref st r st', updatePoolObject heap gen fuel kvs ref st = (.ok r, st') →
      listPathOk heap (kvs.map Prod.snd) st st') := by
  intro fuel
  induction fuel with
  | zero =>
    refine ⟨?_, ?_, ?_, ?_⟩
    · intro v st r st' h
      exact Except.noConfusion (congrArg Prod.fst h)
    · intro vs st r st' h
      exact Except.noConfusion (congrArg Prod.fst h)
    · intro kvs st r st' h
      exact Except.noConfusion (congrArg Prod.fst h)
    · intro kvs ref st r st' h
      exact Except.noConfusion (congrArg Prod.fst h)
  | succ fuel ih =>
    obtain ⟨ihV, ihL, ihF, ihP⟩ := ih
    have partV : ∀ v st r st', updateValue heap gen (fuel + 1) v st = (.ok r, st') →
        valPathOk heap v st st' := by
      intro v st r st' h
      cases v with
      | str s =>
        have hst := congrArg Prod.snd h
        cases hst
        exact valPathOk_scalar heap st (follow_scalar_str heap s)
      | num n =>
        have hst := congrArg Prod.snd h
        cases hst
        exact valPathOk_scalar heap st (follow_scalar_num heap n)
      | bool b =>
        have hst := congrArg Prod.snd h
        cases hst
        exact valPathOk_scalar heap st (follow_scalar_bool heap b)
      | null =>
        have hst := congrArg Prod.snd h
        cases hst
        exact valPathOk_scalar heap st (follow_scalar_null heap)
      | undefined =>
        have hst := congrArg Prod.snd h
        cases hst
        exact valPathOk_scalar heap st (follow_scalar_undefined heap)
      | node n =>
        simp only [updateValue] at h
        split at h
        · exact Except.noConfusion (congrArg Prod.fst h)
        · rename_i hnot
          have hfresh : elemK n st.visited = false := by
            revert hnot; cases elemK n st.visited <;> simp
          split at h
          · rename_i hlook
            have hst := congrArg Prod.snd h
            cases hst
            exact valPathOk_node_miss heap hfresh rfl hlook
          · rename_i l hlook
            split at h
            · rename_i vs st2 heq
              have hst := congrArg Prod.snd h
              cases hst
              exact valPathOk_node heap hfresh rfl hlook (ihL _ _ _ _ heq)
            · exact Except.noConfusion (congrArg Prod.fst h)
          · rename_i kvs hlook
            split at h
            · rename_i ref hident
              exact valPathOk_node heap hfresh rfl hlook (ihP _ _ _ _ _ h)
            · rename_i hident
              split at h
              · rename_i out st2 heq
                have hst := congrArg Prod.snd h
                cases hst
                exact valPathOk_node heap hfresh rfl hlook (ihF _ _ _ _ heq)
              · exact Except.noConfusion (congrArg Prod.fst h)
    refine ⟨partV, ?_, ?_, ?_⟩
    · intro vs st r st' h
      cases vs with
      | nil =>
        have hst := congrArg Prod.snd h
        cases hst
        exact listPathOk_nil heap st
      | cons v vs =>
        simp only [updateList] at h
        split at h
        · rename_i v' st1 heq1
          split at h
          · rename_i vs' st2 heq2
            have hst := congrArg Prod.snd h
            cases hst
            exact listPathOk_cons heap (ihV _ _ _ _ heq1) (ihL _ _ _ _ heq2)
          · exact Except.noConfusion (congrArg Prod.fst h)
        · exact Except.noConfusion (congrArg Prod.fst h)
    · intro kvs st r st' h
      cases kvs with
      | nil =>
        have hst := congrArg Prod.snd h
        cases hst
        exact listPathOk_nil heap st
      | cons kv kvs =>
        obtain ⟨k, v⟩ := kv
        simp only [updateFields] at h
        rw [List.map_cons]
        split at h
        · rename_i v' st1 heq1
          split at h
          · rename_i kvs' st2 heq2
            have hst := congrArg Prod.snd h
            cases hst
            exact listPathOk_cons heap (ihV _ _ _ _ heq1) (ihF _ _ _ _ heq2)
          · exact Except.noConfusion (congrArg Prod.fst h)
        · exact Except.noConfusion (congrArg Prod.fst h)
    · intro kvs ref st r st' h
      simp only [updatePoolObject] at h
      split at h
      · rename_i newFields st2 heq
        injection h with h1 h2
        subst h2
        exact listPathOk_congr heap (ihF _ _ _ _ heq) rfl rfl
      · exact Except.noConfusion (congrArg Prod.fst h)

/-- The batch loop satisfies the same path conclusions, item-indexed. -/
theorem itemsPathOk (heap : Heap) (gen fuel : Nat) :
    ∀ items st st', updateItems heap gen fuel items st = (.ok (), st') →
      listPathOk heap items st st' := by
  intro items
  induction items with
  | nil =>
    intro st st' h
    have hst := congrArg Prod.snd h
    cases hst
    exact listPathOk_nil heap st
  | cons v vs ih =>
    intro st st' h
    simp only [updateItems] at h
    split at h
    · rename_i r st1 heq
      exact listPathOk_cons heap ((updPack heap gen fuel).1 _ _ _ _ heq) (ih st1 st' h)
    · exact Except.noConfusion (congrArg Prod.fst h)

theorem elemK_cons_ne {κ : Type} [DecidableEq κ] {k m : κ} (l : List κ) (h : m ≠ k) :
    elemK k (m :: l) = elemK k l := by
  simp [elemK, h]

/-- Unvisited heap weight only shrinks as the visited set grows. -/
theorem heapWeight_mono (heap : Heap) {vis vis' : List Nat}
    (h : ∀ n, elemK n vis = true → elemK n vis' = true) :
    heapWeight heap vis' ≤ heapWeight heap vis := by
  induction heap with
  | nil => simp [heapWeight]
  | cons e rest ih =>
    obtain ⟨n, c⟩ := e
    simp only [heapWeight]
    rcases hv : elemK n vis with _ | _
    · rcases hv' : elemK n vis' with _ | _
      · simp only [hv, hv', Bool.false_eq_true, if_false]
        omega
      · simp only [hv, hv', Bool.false_eq_true, if_false, if_true]
        omega
    · simp only [h n hv, eq_self_iff_true, if_true]
      omega

/-- Visiting a fresh node that exists in the heap frees up its weight. -/
theorem heapWeight_visit (heap : Heap) {n : Nat} {c : HNode} {vis : List Nat}
    (hlook : alook n heap = some c) (hfresh : elemK n vis = false) :
    heapWeight heap (n :: vis) + (3 + 2 * (childVals c).length) ≤ heapWeight heap vis := by
  induction heap with
  | nil => simp [alook] at hlook
  | cons e rest ih =>
    obtain ⟨m, c'⟩ := e
    by_cases hm : m = n
    · subst hm
      rw [alook_cons_self] at hlook
      injection hlook with hc
      subst hc
      have hmono := @heapWeight_mono rest vis (m :: vis)
        (fun k hk => elemK_cons_of_mem m hk)
      simp only [heapWeight, hfresh, elemK_cons_self, Bool.false_eq_true, if_false, if_true]
      omega
    · rw [alook_cons_ne _ _ hm] at hlook
      have hrest := ih hlook
      have hne : n ≠ m := fun he => hm he.symm
      simp only [heapWeight, elemK_cons_ne vis hne]
      omega

/-- With enough fuel (the unvisited heap weight plus slack), normalization
never runs out of fuel: the only possible error is the cyclic-reference one. -/
theorem updNoGas (heap : Heap) (gen : Nat) : ∀ fuel : Nat,
    (∀ v st, heapWeight heap st.visited + 2 ≤ fuel →
      (updateValue heap gen fuel v st).1 ≠ .error .gas) ∧
    (∀ vs st, 2 * vs.length + heapWeight heap st.visited + 2 ≤ fuel →
      (updateList heap gen fuel vs st).1 ≠ .error .gas) ∧
    (∀ kvs st, 2 * kvs.length + heapWeight heap st.visited + 2 ≤ fuel →
      (updateFields heap gen fuel kvs st).1 ≠ .error .gas) ∧
    (∀ kvs ref st, 2 * kvs.length + heapWeight heap st.visited + 3 ≤ fuel →
      (updatePoolObject heap gen fuel kvs ref st).1 ≠ .error .gas) := by
  intro fuel
  induction fuel with
  | zero =>
    refine ⟨?_, ?_, ?_, ?_⟩
    · intro v st hb
      omega
    · intro vs st hb
      omega
    · intro kvs st hb
      omega
    · intro kvs ref st hb
      omega
  | succ fuel ih =>
    obtain ⟨ihV, ihL, ihF, ihP⟩ := ih
    have partV : ∀ v st, heapWeight heap st.visited + 2 ≤ fuel + 1 →
        (updateValue heap gen (fuel + 1) v st).1 ≠ .error .gas := by
      intro v st hb
      cases v with
      | str s => simp [updateValue]
      | num n => simp [updateValue]
      | bool b => simp [updateValue]
      | null => simp [updateValue]
      | undefined => simp [updateValue]
      | node n =>
        simp only [updateValue]
        split
        · simp
        · rename_i hnot
          have hfresh : elemK n st.visited = false := by
            revert hnot; cases elemK n st.visited <;> simp
          split
          · simp
          · rename_i l hlook
            have hw := heapWeight_visit heap hlook hfresh
            simp only [childVals] at hw
            split
            · simp
            · rename_i e st2 heq
              have hng := ihL l { st with visited := n :: st.visited } (by
                show 2 * l.length + heapWeight heap (n :: st.visited) + 2 ≤ fuel
                omega)
              rw [heq] at hng
              simpa using hng
          · rename_i kvs hlook
            have hw := heapWeight_visit heap hlook hfresh
            simp only [childVals, List.length_map] at hw
            split
            · rename_i ref hident
              exact ihP kvs ref { st with visited := n :: st.visited } (by
                show 2 * kvs.length + heapWeight heap (n :: st.visited) + 3 ≤ fuel
                omega)
            · rename_i hident
              split
              · simp
              · rename_i e st2 heq
                have hng := ihF kvs { st with visited := n :: st.visited } (by
                  show 2 * kvs.length + heapWeight heap (n :: st.visited) + 2 ≤ fuel
                  omega)
                rw [heq] at hng
                simpa using hng
    refine ⟨partV, ?_, ?_, ?_⟩
    · intro vs st hb
      cases vs with
      | nil => simp [updateList]
      | cons v vs =>
        simp only [List.length_cons] at hb
        simp only [updateList]
        split
        · rename_i v' st1 heq
          have hmono := ((updPack heap gen fuel).1 _ _ _ _ heq).1
          have hwm := heapWeight_mono heap hmono
          split
          · simp
          · rename_i e st2 heq2
            have hng := ihL vs st1 (by omega)
            rw [heq2] at hng
            simpa using hng
        · rename_i e st1 heq
          have hng := ihV v st (by omega)
          rw [heq] at hng
          simpa using hng
    · intro kvs st hb
      cases kvs with
      | nil => simp [updateFields]
      | cons kv kvs =>
        obtain ⟨k, v⟩ := kv
        simp only [List.length_cons] at hb
        simp only [updateFields]
        split
        · rename_i v' st1 heq
          have hmono := ((updPack heap gen fuel).1 _ _ _ _ heq).1
          have hwm := heapWeight_mono heap hmono
          split
          · simp
          · rename_i e st2 heq2
            have hng := ihF kvs st1 (by omega)
            rw [heq2] at hng
            simpa using hng
        · rename_i e st1 heq
          have hng := ihV v st (by omega)
          rw [heq] at hng
          simpa using hng
    · intro kvs ref st hb
      simp only [updatePoolObject]
      split
      · simp
      · rename_i e st2 heq
        have hng := ihF kvs { st with references := addRef ref st.references } (by
          show 2 * kvs.length + heapWeight heap st.visited + 2 ≤ fuel
          omega)
        rw [heq] at hng
        simpa using hng

/-- The batch loop never runs out of fuel either. -/
theorem itemsNoGas (heap : Heap) (gen fuel : Nat) :
    ∀ items st, heapWeight heap st.visited + 2 ≤ fuel →
      (updateItems heap gen fuel items st).1 ≠ .error .gas := by
  intro items
  induction items with
  | nil =>
    intro st hb
    simp [updateItems]
  | cons v vs ih =>
    intro st hb
    simp only [updateItems]
    split
    · rename_i v' st1 heq
      have hmono := ((updPack heap gen fuel).1 _ _ _ _ heq).1
      have hwm := heapWeight_mono heap hmono
      exact ih st1 (by omega)
    · rename_i e st1 heq
      have hng := (updNoGas heap gen fuel).1 v st hb
      rw [heq] at hng
      simpa using hng

/-- A `write` call never fails with the fuel artifact: it either succeeds or
raises the cyclic-reference error of the source. -/
theorem write_no_gas (heap : Heap) (items : List JVal) (pool : Pool) :
    (write heap items pool).1 ≠ .error .gas := by
  simp only [write]
  split
  · simp
  · rename_i e st heq
    have hng := itemsNoGas heap pool.generation (writeFuel heap) items
      ⟨[], [], pool.backing⟩ (by
        show heapWeight heap [] + 2 ≤ writeFuel heap
        simp [writeFuel])
    rw [heq] at hng
    simpa using hng

/-- C3: if the same raw input node is reachable twice within one `write`
call — two different paths from the batch items end at the same node, which
covers both an object containing itself and a shared sub-object appearing at
two places in the batch — then `write` throws the cyclic-reference error. -/
theorem write_rejects_shared_node (heap : Heap) (items : List JVal) (pool : Pool)
    (j1 j2 : Nat) (p1 p2 : List Nat) (v1 v2 : JVal) (n : Nat)
    (h1 : items.get? j1 = some v1) (h2 : items.get? j2 = some v2)
    (hf1 : follow heap v1 p1 = some n) (hf2 : follow heap v2 p2 = some n)
    (hne : (j1, p1) ≠ (j2, p2)) :
    (write heap items pool).1 = .error .cyclic := by
  simp only [write]
  split
  · rename_i u st heq
    cases u
    have hinj := (itemsPathOk heap pool.generation (writeFuel heap) items _ _ heq).2.2
    obtain ⟨hj, hp⟩ := hinj j1 v1 p1 j2 v2 p2 n h1 h2 hf1 hf2
    exact absurd (by rw [hj, hp]) hne
  · rename_i e st heq
    have hng := itemsNoGas heap pool.generation (writeFuel heap) items
      ⟨[], [], pool.backing⟩ (by
        show heapWeight heap [] + 2 ≤ writeFuel heap
        simp [writeFuel])
    rw [heq] at hng
    cases e with
    | cyclic => rfl
    | gas => simp at hng

/-- The empty pool used by the concrete witnesses. -/
def poolEmpty : Pool := ⟨[], 0, []⟩

/-- A heap with a single self-containing object (`a.self === a`). -/
def heapSelfLoop : Heap := [(0, .obj [("self", .node 0)])]

/-- Witness for C3: the self-containing object is reachable both directly
and through its own `self` field, and `write` rejects it. -/
theorem write_rejects_shared_node_witness :
    follow heapSelfLoop (.node 0) [] = some 0 ∧
    follow heapSelfLoop (.node 0) [0] = some 0 ∧
    (write heapSelfLoop [.node 0] poolEmpty).1 = .error .cyclic :=
  ⟨rfl, rfl,
    write_rejects_shared_node heapSelfLoop [.node 0] poolEmpty 0 0 [] [0]
      (.node 0) (.node 0) 0 rfl rfl rfl rfl (by decide)⟩

/-- C5: a `write` call that completes normally increments the generation
counter (`time`) by exactly one, regardless of the batch, including the
empty batch. -/
theorem write_increments_time (heap : Heap) (items : List JVal) (pool : Pool)
    (p' : Pool) (invs : List (Nat × Val))
    (h : write heap items pool = (.ok (), p', invs)) :
    p'.generation = pool.generation + 1 := by
  simp only [write] at h
  split at h
  · rename_i u st heq
    have h2 := congrArg (fun t => (Prod.fst (Prod.snd t)).generation) h
    exact h2.symm.trans rfl
  · exact Except.noConfusion (congrArg Prod.fst h)

/-- Witness for C5: an empty batch on the empty pool moves `time` from 0 to 1. -/
theorem write_increments_time_witness :
    ∃ p' invs, write [] [] poolEmpty = (.ok (), p', invs) ∧
      p'.generation = poolEmpty.generation + 1 :=
  ⟨(write [] [] poolEmpty).2.1, (write [] [] poolEmpty).2.2, rfl,
    write_increments_time [] [] poolEmpty _ _ rfl⟩

/-- C10: a `write` call that throws leaves the generation counter unchanged
and performs no listener notification. -/
theorem failed_write_preserves_time (heap : Heap) (items : List JVal) (pool : Pool)
    (e : Err) (p' : Pool) (invs : List (Nat × Val))
    (h : write heap items pool = (.error e, p', invs)) :
    p'.generation = pool.generation ∧ invs = [] := by
  simp only [write] at h
  split at h
  · exact Except.noConfusion (congrArg Prod.fst h)
  · rename_i e' st heq
    constructor
    · have h2 := congrArg (fun t => (Prod.fst (Prod.snd t)).generation) h
      exact h2.symm.trans rfl
    · have h3 := congrArg (fun t => Prod.snd (Prod.snd t)) h
      exact h3.symm.trans rfl

/-- Witness for C10: the rejected self-loop write keeps `time` at 0 and
notifies nobody. -/
theorem failed_write_preserves_time_witness :
    ∃ p' invs, write heapSelfLoop [.node 0] poolEmpty = (.error .cyclic, p', invs) ∧
      p'.generation = poolEmpty.generation ∧ invs = [] := by
  refine ⟨(write heapSelfLoop [.node 0] poolEmpty).2.1,
    (write heapSelfLoop [.node 0] poolEmpty).2.2, rfl, ?_⟩
  exact failed_write_preserves_time heapSelfLoop [.node 0] poolEmpty .cyclic _ _ rfl

/-- The two-item batch used for C8: a well-formed user followed by a
self-containing user. -/
def heapC8 : Heap :=
  [(0, .obj [("id", .num 1), (TYPE_LABEL, .str "user"), ("name", .str "Alice")]),
   (1, .obj [("id", .num 2), (TYPE_LABEL, .str "user"), ("self", .node 1)])]

/-- C8: when a cycle is detected partway through a batch, the entities
normalized earlier in the same batch remain committed in the backing store
after the error — the batch is not rolled back. -/
theorem write_batch_not_atomic :
    (write heapC8 [.node 0, .node 1] poolEmpty).1 = .error .cyclic ∧
    alook "user:1" (write heapC8 [.node 0, .node 1] poolEmpty).2.1.backing =
      some ⟨0, [("id", .num 1), (TYPE_LABEL, .str "user"), ("name", .str "Alice")]⟩ ∧
    alook "user:2" (write heapC8 [.node 0, .node 1] poolEmpty).2.1.backing = none :=
  ⟨rfl, rfl, rfl⟩

/-! ### Read-side lemmas: the resolution cache only grows, new cache entries
come from the backing store, and the canonical fuel always suffices. -/

/-- The resolution cache (stack) only gains entries. -/
def stackMono (st st' : RSt) : Prop :=
  ∀ r, (alook r st.stack).isSome = true → (alook r st'.stack).isSome = true

/-- Every new cache entry is a ref present in the backing store. -/
def stackNew (backing : List (String × PoolObject)) (st st' : RSt) : Prop :=
  ∀ r, (alook r st'.stack).isSome = true →
    (alook r st.stack).isSome = true ∨ (alook r backing).isSome = true

theorem stackMono_refl (st : RSt) : stackMono st st := fun _ h => h

theorem stackMono_trans {a b c : RSt} (h1 : stackMono a b) (h2 : stackMono b c) :
    stackMono a c := fun r h => h2 r (h1 r h)

theorem stackNew_refl (backing : List (String × PoolObject)) (st : RSt) :
    stackNew backing st st := fun _ h => Or.inl h

theorem stackNew_trans {backing : List (String × PoolObject)} {a b c : RSt}
    (h1 : stackNew backing a b) (h2 : stackNew backing b c) : stackNew backing a c := by
  intro r h
  rcases h2 r h with h3 | h3
  · exact h1 r h3
  · exact Or.inr h3

theorem alook_cons_isSome {κ α : Type} [DecidableEq κ] {r : κ} {s : List (κ × α)}
    (k : κ) (v : α) (h : (alook r s).isSome = true) :
    (alook r ((k, v) :: s)).isSome = true := by
  by_cases hk : k = r
  · subst hk; rw [alook_cons_self]; rfl
  · rw [alook_cons_ne _ _ hk]; exact h

theorem alook_cons_cases {κ α : Type} [DecidableEq κ] {r k : κ} {v : α} {s : List (κ × α)}
    (h : (alook r ((k, v) :: s)).isSome = true) :
    k = r ∨ (alook r s).isSome = true := by
  by_cases hk : k = r
  · exact Or.inl hk
  · rw [alook_cons_ne _ _ hk] at h; exact Or.inr h

/-- Uncached backing weight only shrinks as the cache grows. -/
theorem backingWeight_mono (backing : List (String × PoolObject)) {s s' : List (String × Nat)}
    (h : ∀ r, (alook r s).isSome = true → (alook r s').isSome = true) :
    backingWeight backing s' ≤ backingWeight backing s := by
  induction backing with
  | nil => simp [backingWeight]
  | cons e rest ih =>
    obtain ⟨r, po⟩ := e
    simp only [backingWeight]
    rcases hv : alook r s with _ | i
    · rcases hv' : alook r s' with _ | i'
      · simp only [hv, hv', Option.isNone_none, if_true]
        omega
      · simp only [hv, hv', Option.isNone_none, Option.isNone_some, if_true, Bool.false_eq_true,
          if_false]
        omega
    · have h2 : (alook r s').isSome = true := h r (by rw [hv]; rfl)
      rcases hv' : alook r s' with _ | i'
      · rw [hv'] at h2; cases h2
      · simp only [hv, hv', Option.isNone_some, Bool.false_eq_true, if_false]
        omega

/-- Registering a fresh, present ref in the cache frees up its weight. -/
theorem backingWeight_hit (backing : List (String × PoolObject)) {ref : String}
    {po : PoolObject} {s : List (String × Nat)} (i : Nat)
    (hlook : alook ref backing = some po) (hfresh : alook ref s = none) :
    backingWeight backing ((ref, i) :: s) + (2 + sizeFL po.fields) ≤
      backingWeight backing s := by
  induction backing with
  | nil => simp [alook] at hlook
  | cons e rest ih =>
    obtain ⟨r, po'⟩ := e
    by_cases hr : r = ref
    · subst hr
      rw [alook_cons_self] at hlook
      injection hlook with hpo
      subst hpo
      have hmono := @backingWeight_mono rest s ((r, i) :: s)
        (fun k hk => alook_cons_isSome r i hk)
      simp only [backingWeight, hfresh, alook_cons_self, Option.isNone_none, if_true,
        Option.isNone_some, Bool.false_eq_true, if_false]
      omega
    · rw [alook_cons_ne _ _ hr] at hlook
      have hrest := ih hlook
      have hne : ref ≠ r := fun he => hr he.symm
      simp only [backingWeight, alook_cons_ne _ _ hne]
      omega

/-- A resolution that reports a missing ref does not change the state. -/
theorem resolvePoolObject_none_state (backing : List (String × PoolObject)) (fuel : Nat)
    (ref : String) (st st' : RSt)
    (h : resolvePoolObject backing fuel ref st = (.ok none, st')) : st' = st := by
  cases fuel with
  | zero => exact Except.noConfusion (congrArg Prod.fst h)
  | succ fuel =>
    simp only [resolvePoolObject] at h
    split at h
    · simp at h
    · split at h
      · exact (congrArg Prod.snd h).symm
      · split at h
        · simp at h
        · exact Except.noConfusion (congrArg Prod.fst h)

/-- Main read-side pack: with fuel at least the size of the value plus the
uncached backing weight, resolution succeeds, and the cache evolves
monotonically with new entries drawn from the backing store. -/
theorem resPack (backing : List (String × PoolObject)) : ∀ fuel : Nat,
    (∀ v st, sizeV v + backingWeight backing st.stack + 1 ≤ fuel →
      ∃ r st', resolveValue backing fuel v st = (.ok r, st') ∧
        stackMono st st' ∧ stackNew backing st st' ∧
        st.arena.length ≤ st'.arena.length) ∧
    (∀ vs st, sizeVL vs + backingWeight backing st.stack + 1 ≤ fuel →
      ∃ rs st', resolveList backing fuel vs st = (.ok rs, st') ∧
        stackMono st st' ∧ stackNew backing st st' ∧
        st.arena.length ≤ st'.arena.length) ∧
    (∀ kvs st, sizeFL kvs + backingWeight backing st.stack + 1 ≤ fuel →
      ∃ rs st', resolveFields backing fuel kvs st = (.ok rs, st') ∧
        stackMono st st' ∧ stackNew backing st st' ∧
        st.arena.length ≤ st'.arena.length) ∧
    (∀ ref st, backingWeight backing st.stack + 1 ≤ fuel →
      ∃ ov st', resolvePoolObject backing fuel ref st = (.ok ov, st') ∧
        stackMono st st' ∧ stackNew backing st st' ∧
        st.arena.length ≤ st'.arena.length) := by
  intro fuel
  induction fuel with
  | zero =>
    refine ⟨?_, ?_, ?_, ?_⟩
    · intro v st hb
      omega
    · intro vs st hb
      omega
    · intro kvs st hb
      omega
    · intro ref st hb
      omega
  | succ fuel ih =>
    obtain ⟨ihV, ihL, ihF, ihP⟩ := ih
    have partP : ∀ ref st, backingWeight backing st.stack + 1 ≤ fuel + 1 →
        ∃ ov st', resolvePoolObject backing (fuel + 1) ref st = (.ok ov, st') ∧
          stackMono st st' ∧ stackNew backing st st' ∧
          st.arena.length ≤ st'.arena.length := by
      intro ref st hb
      rcases hstk : alook ref st.stack with _ | i
      · rcases hbk : alook ref backing with _ | po
        · exact ⟨none, st, by simp only [resolvePoolObject, hstk, hbk],
            stackMono_refl st, stackNew_refl backing st, Nat.le_refl _⟩
        · have hhit := backingWeight_hit backing st.arena.length hbk hstk
          obtain ⟨out, st2, heq, m2, n2, a2⟩ := ihF po.fields
            ⟨(ref, st.arena.length) :: st.stack, st.arena ++ [[]]⟩ (by
              show sizeFL po.fields +
                backingWeight backing ((ref, st.arena.length) :: st.stack) + 1 ≤ fuel
              omega)
          refine ⟨some (.ent st.arena.length), ⟨st2.stack, st2.arena.set st.arena.length out⟩,
            by simp only [resolvePoolObject, hstk, hbk, heq], ?_, ?_, ?_⟩
          · intro r h
            exact m2 r (alook_cons_isSome ref st.arena.length h)
          · intro r h
            rcases n2 r h with h2 | h2
            · rcases alook_cons_cases h2 with h3 | h3
              · subst h3
                right
                rw [hbk]; rfl
              · exact Or.inl h3
            · exact Or.inr h2
          · show st.arena.length ≤ (st2.arena.set st.arena.length out).length
            rw [List.length_set]
            have ha : (st.arena ++ [[]]).length = st.arena.length + 1 := by
              simp
            simp only [ha] at a2
            omega
      · exact ⟨some (.ent i), st, by simp only [resolvePoolObject, hstk],
          stackMono_refl st, stackNew_refl backing st, Nat.le_refl _⟩
    have partV : ∀ v st, sizeV v + backingWeight backing st.stack + 1 ≤ fuel + 1 →
        ∃ r st', resolveValue backing (fuel + 1) v st = (.ok r, st') ∧
          stackMono st st' ∧ stackNew backing st st' ∧
          st.arena.length ≤ st'.arena.length := by
      intro v st hb
      cases v with
      | str s => exact ⟨.str s, st, rfl, stackMono_refl st, stackNew_refl backing st, Nat.le_refl _⟩
      | num n => exact ⟨.num n, st, rfl, stackMono_refl st, stackNew_refl backing st, Nat.le_refl _⟩
      | bool b => exact ⟨.bool b, st, rfl, stackMono_refl st, stackNew_refl backing st, Nat.le_refl _⟩
      | null => exact ⟨.null, st, rfl, stackMono_refl st, stackNew_refl backing st, Nat.le_refl _⟩
      | undefined => exact ⟨.undefined, st, rfl, stackMono_refl st, stackNew_refl backing st, Nat.le_refl _⟩
      | ent i => exact ⟨.ent i, st, rfl, stackMono_refl st, stackNew_refl backing st, Nat.le_refl _⟩
      | arr l =>
        simp only [sizeV] at hb
        obtain ⟨vs, st2, heq, m2, n2, a2⟩ := ihL l st (by omega)
        exact ⟨.arr vs, st2, by simp only [resolveValue, heq], m2, n2, a2⟩
      | obj kvs =>
        simp only [sizeV] at hb
        rcases hm : alook REF_LABEL kvs with _ | mv
        · obtain ⟨out, st2, heq, m2, n2, a2⟩ := ihF kvs st (by omega)
          exact ⟨.obj out, st2, by simp only [resolveValue, hm, heq], m2, n2, a2⟩
        · cases mv with
          | str r =>
            obtain ⟨ov, st2, heqP, mP, nP, aP⟩ := ihP r st (by omega)
            cases ov with
            | some m =>
              exact ⟨m, st2, by simp only [resolveValue, hm, heqP], mP, nP, aP⟩
            | none =>
              have hst2 := resolvePoolObject_none_state backing fuel r st st2 heqP
              subst hst2
              obtain ⟨out, st3, heqF, mF, nF, aF⟩ := ihF kvs st2 (by omega)
              exact ⟨.obj out, st3, by simp only [resolveValue, hm, heqP, heqF], mF, nF, aF⟩
          | num x =>
            obtain ⟨out, st2, heq, m2, n2, a2⟩ := ihF kvs st (by omega)
            exact ⟨.obj out, st2, by simp only [resolveValue, hm, heq], m2, n2, a2⟩
          | bool x =>
            obtain ⟨out, st2, heq, m2, n2, a2⟩ := ihF kvs st (by omega)
            exact ⟨.obj out, st2, by simp only [resolveValue, hm, heq], m2, n2, a2⟩
          | null =>
            obtain ⟨out, st2, heq, m2, n2, a2⟩ := ihF kvs st (by omega)
            exact ⟨.obj out, st2, by simp only [resolveValue, hm, heq], m2, n2, a2⟩
          | undefined =>
            obtain ⟨out, st2, heq, m2, n2, a2⟩ := ihF kvs st (by omega)
            exact ⟨.obj out, st2, by simp only [resolveValue, hm, heq], m2, n2, a2⟩
          | arr x =>
            obtain ⟨out, st2, heq, m2, n2, a2⟩ := ihF kvs st (by omega)
            exact ⟨.obj out, st2, by simp only [resolveValue, hm, heq], m2, n2, a2⟩
          | obj x =>
            obtain ⟨out, st2, heq, m2, n2, a2⟩ := ihF kvs st (by omega)
            exact ⟨.obj out, st2, by simp only [resolveValue, hm, heq], m2, n2, a2⟩
          | ent x =>
            obtain ⟨out, st2, heq, m2, n2, a2⟩ := ihF kvs st (by omega)
            exact ⟨.obj out, st2, by simp only [resolveValue, hm, heq], m2, n2, a2⟩
    refine ⟨partV, ?_, ?_, partP⟩
    · intro vs st hb
      cases vs with
      | nil => exact ⟨[], st, rfl, stackMono_refl st, stackNew_refl backing st, Nat.le_refl _⟩
      | cons v vs =>
        simp only [sizeVL] at hb
        obtain ⟨v', st1, heq1, m1, n1, a1⟩ := ihV v st (by omega)
        have hw1 := backingWeight_mono backing m1
        obtain ⟨vs', st2, heq2, m2, n2, a2⟩ := ihL vs st1 (by omega)
        exact ⟨v' :: vs', st2, by simp only [resolveList, heq1, heq2],
          stackMono_trans m1 m2, stackNew_trans n1 n2, Nat.le_trans a1 a2⟩
    · intro kvs st hb
      cases kvs with
      | nil => exact ⟨[], st, rfl, stackMono_refl st, stackNew_refl backing st, Nat.le_refl _⟩
      | cons kv kvs =>
        obtain ⟨k, v⟩ := kv
        simp only [sizeFL] at hb
        obtain ⟨v', st1, heq1, m1, n1, a1⟩ := ihV v st (by omega)
        have hw1 := backingWeight_mono backing m1
        obtain ⟨kvs', st2, heq2, m2, n2, a2⟩ := ihF kvs st1 (by omega)
        exact ⟨(k, v') :: kvs', st2, by simp only [resolveFields, heq1, heq2],
          stackMono_trans m1 m2, stackNew_trans n1 n2, Nat.le_trans a1 a2⟩

/-- C7: every `read` call terminates with a result — in particular on pools
whose stored entities reference each other cyclically via markers, thanks to
the per-call cache registering a placeholder before fields are resolved. -/
theorem read_terminates (pool : Pool) (ref : String) :
    ∃ v st', read pool ref = (.ok v, st') := by
  obtain ⟨ov, st', heq, _, _, _⟩ := (resPack pool.backing (poolFuel pool)).2.2.2 ref ⟨[], []⟩ (by
    show backingWeight pool.backing [] + 1 ≤ poolFuel pool
    simp [poolFuel])
  exact ⟨ov, st', heq⟩

/-- C4: reading a ref with no entity in the backing store yields null
(`none`), never an error. -/
theorem read_missing_ref_null (pool : Pool) (ref : String)
    (h : alook ref pool.backing = none) : (read pool ref).1 = .ok none := by
  show (resolvePoolObject pool.backing (poolFuel pool) ref ⟨[], []⟩).1 = .ok none
  have hf : poolFuel pool = backingWeight pool.backing [] + 1 := rfl
  rw [hf]
  simp [resolvePoolObject, alook, h]

/-- Witness for C4: reading `user:999` from the empty pool yields null. -/
theorem read_missing_ref_null_witness :
    alook "user:999" poolEmpty.backing = none ∧
      (read poolEmpty "user:999").1 = .ok none :=
  ⟨rfl, read_missing_ref_null poolEmpty "user:999" rfl⟩

/-- A reference marker whose target is neither cached nor stored resolves to
the literal marker-shaped inline mapping. -/
theorem resolve_marker_dangling (backing : List (String × PoolObject)) (r : String)
    (st : RSt) (f : Nat) (hstk : alook r st.stack = none)
    (hbk : alook r backing = none) (hf : 3 ≤ f) :
    resolveValue backing f (.obj [(REF_LABEL, .str r)]) st =
      (.ok (.obj [(REF_LABEL, .str r)]), st) := by
  obtain ⟨g, rfl⟩ : ∃ g, f = g + 1 + 1 + 1 := ⟨f - 3, by omega⟩
  simp [resolveValue, resolvePoolObject, resolveFields, alook, hstk, hbk, REF_LABEL]

/-- Resolving the fields of an entity keeps a field that is a dangling
marker as the literal marker mapping, whatever the other fields are. -/
theorem resolveFields_dangling (backing : List (String × PoolObject)) (k r : String) :
    ∀ (kvs : List (String × Val)) (st : RSt) (fuel : Nat),
      sizeFL kvs + backingWeight backing st.stack + 1 ≤ fuel →
      alook k kvs = some (.obj [(REF_LABEL, .str r)]) →
      alook r backing = none → alook r st.stack = none →
      ∃ out st', resolveFields backing fuel kvs st = (.ok out, st') ∧
        alook k out = some (.obj [(REF_LABEL, .str r)]) ∧
        st.arena.length ≤ st'.arena.length := by
  intro kvs
  induction kvs with
  | nil =>
    intro st fuel hb hk
    simp [alook] at hk
  | cons kv rest ih =>
    intro st fuel hb hk hbk hstk
    obtain ⟨k1, v1⟩ := kv
    rcases hfuel : fuel with _ | f
    · subst hfuel
      simp only [sizeFL] at hb
      omega
    · subst hfuel
      by_cases hk1 : k1 = k
      · subst hk1
        rw [alook_cons_self] at hk
        injection hk with hv1
        subst hv1
        simp only [sizeFL, sizeV] at hb
        have hmark := resolve_marker_dangling backing r st f hstk hbk (by omega)
        obtain ⟨out', st2, heq2, _, _, a2⟩ := (resPack backing f).2.2.1 rest st (by omega)
        refine ⟨(k1, .obj [(REF_LABEL, .str r)]) :: out', st2, ?_, ?_, a2⟩
        · simp only [resolveFields, hmark, heq2]
        · rw [alook_cons_self]
      · rw [alook_cons_ne _ _ hk1] at hk
        simp only [sizeFL] at hb
        obtain ⟨v1', st1, heq1, m1, n1, a1⟩ := (resPack backing f).1 v1 st (by omega)
        have hw1 := backingWeight_mono backing m1
        have hstk1 : alook r st1.stack = none := by
          rcases hs : alook r st1.stack with _ | i
          · rfl
          · rcases n1 r (by rw [hs]; rfl) with h2 | h2
            · rw [hstk] at h2; cases h2
            · rw [hbk] at h2; cases h2
        obtain ⟨out, st2, heq2, hkout, a2⟩ := ih st1 f (by omega) hk hbk hstk1
        refine ⟨(k1, v1') :: out, st2, ?_, ?_, Nat.le_trans a1 a2⟩
        · simp only [resolveFields, heq1, heq2]
        · rw [alook_cons_ne _ _ hk1]
          exact hkout

/-- C6: reading an entity that contains a reference marker whose target ref
is absent from the backing store resolves that marker field to the literal
one-field marker mapping (holding the tag field and the ref string), not to
null. -/
theorem dangling_ref_resolves_to_marker (pool : Pool) (e r k : String) (po : PoolObject)
    (he : alook e pool.backing = some po)
    (hk : alook k po.fields = some (.obj [(REF_LABEL, .str r)]))
    (hr : alook r pool.backing = none) :
    ∃ out, readFields pool e = some out ∧
      alook k out = some (.obj [(REF_LABEL, .str r)]) := by
  have hne : r ≠ e := by
    intro hre
    rw [hre, he] at hr
    cases hr
  have hhit := @backingWeight_hit pool.backing e po [] 0 he rfl
  obtain ⟨out, st', heqF, hkout, ha⟩ := resolveFields_dangling pool.backing k r po.fields
    ⟨[(e, 0)], [[]]⟩ (backingWeight pool.backing []) (by
      show sizeFL po.fields + backingWeight pool.backing [(e, 0)] + 1 ≤
        backingWeight pool.backing []
      omega)
    hk hr (by rw [alook_cons_ne _ _ (fun hee => hne hee.symm)]; rfl)
  have hread : read pool e = (.ok (some (.ent 0)), ⟨st'.stack, st'.arena.set 0 out⟩) := by
    show resolvePoolObject pool.backing (poolFuel pool) e ⟨[], []⟩ =
      (.ok (some (.ent 0)), ⟨st'.stack, st'.arena.set 0 out⟩)
    have hf : poolFuel pool = backingWeight pool.backing [] + 1 := rfl
    rw [hf]
    simp only [resolvePoolObject, alook, he, List.length_nil, List.nil_append, heqF]
  refine ⟨out, ?_, hkout⟩
  rw [readFields, hread]
  have hlen : 0 < st'.arena.length := by
    have ha' : 1 ≤ st'.arena.length := ha
    omega
  simp [List.get?_eq_getElem?, List.getElem?_set_eq_of_lt _ hlen]

/-- Witness for C6: an entity `a:1` whose field `x` is a marker for the
absent ref `b:2` reads back with `x` bound to the literal marker mapping. -/
theorem dangling_ref_resolves_to_marker_witness :
    ∃ out, readFields ⟨[("a:1", ⟨0, [("x", .obj [(REF_LABEL, .str "b:2")])]⟩)], 3, []⟩ "a:1" =
        some out ∧ alook "x" out = some (.obj [(REF_LABEL, .str "b:2")]) :=
  dangling_ref_resolves_to_marker
    ⟨[("a:1", ⟨0, [("x", .obj [(REF_LABEL, .str "b:2")])]⟩)], 3, []⟩
    "a:1" "b:2" "x" ⟨0, [("x", .obj [(REF_LABEL, .str "b:2")])]⟩ rfl rfl rfl

/-! ### Flat scalar objects: the round-trip property -/

/-- A JSON scalar, as used by the round-trip property for flat objects. -/
inductive Scal where
  | str (s : String)
  | num (n : Int)
  | bool (b : Bool)
  | null
  | undefined

/-- A scalar as a raw input value. -/
def jOfScal : Scal → JVal
  | .str s => .str s
  | .num n => .num n
  | .bool b => .bool b
  | .null => .null
  | .undefined => .undefined

/-- A scalar as a stored/resolved pool value. -/
def vOfScal : Scal → Val
  | .str s => .str s
  | .num n => .num n
  | .bool b => .bool b
  | .null => .null
  | .undefined => .undefined

/-- The string a scalar contributes to a ref when used as the `id` field:
defined exactly for the valid id scalars (strings and numbers). -/
def idStrOf : Scal → Option String
  | .str s => some s
  | .num n => some (toString n)
  | _ => none

theorem updateValue_scalar (heap : Heap) (gen : Nat) (sc : Scal) (f : Nat) (st : WSt) :
    updateValue heap gen (f + 1) (jOfScal sc) st = (.ok (vOfScal sc), st) := by
  cases sc <;> rfl

theorem resolveValue_scalar (backing : List (String × PoolObject)) (sc : Scal) (f : Nat)
    (st : RSt) : resolveValue backing (f + 1) (vOfScal sc) st = (.ok (vOfScal sc), st) := by
  cases sc <;> rfl

theorem updateFields_scalars (heap : Heap) (gen : Nat) (kvs : List (String × Scal)) :
    ∀ fuel st, kvs.length + 1 ≤ fuel →
      updateFields heap gen fuel (kvs.map (fun kv => (kv.1, jOfScal kv.2))) st =
        (.ok (kvs.map (fun kv => (kv.1, vOfScal kv.2))), st) := by
  induction kvs with
  | nil =>
    intro fuel st hf
    obtain ⟨f, rfl⟩ : ∃ f, fuel = f + 1 := ⟨fuel - 1, by omega⟩
    rfl
  | cons kv rest ih =>
    intro fuel st hf
    simp only [List.length_cons] at hf
    obtain ⟨f, rfl⟩ : ∃ f, fuel = f + 1 := ⟨fuel - 1, by omega⟩
    obtain ⟨g, rfl⟩ : ∃ g, f = g + 1 := ⟨f - 1, by omega⟩
    obtain ⟨k, sc⟩ := kv
    simp only [List.map_cons, updateFields, updateValue_scalar heap gen sc g st,
      ih (g + 1) st (by omega)]

theorem resolveFields_scalars (backing : List (String × PoolObject))
    (kvs : List (String × Scal)) :
    ∀ fuel st, kvs.length + 1 ≤ fuel →
      resolveFields backing fuel (kvs.map (fun kv => (kv.1, vOfScal kv.2))) st =
        (.ok (kvs.map (fun kv => (kv.1, vOfScal kv.2))), st) := by
  induction kvs with
  | nil =>
    intro fuel st hf
    obtain ⟨f, rfl⟩ : ∃ f, fuel = f + 1 := ⟨fuel - 1, by omega⟩
    rfl
  | cons kv rest ih =>
    intro fuel st hf
    simp only [List.length_cons] at hf
    obtain ⟨f, rfl⟩ : ∃ f, fuel = f + 1 := ⟨fuel - 1, by omega⟩
    obtain ⟨g, rfl⟩ : ∃ g, f = g + 1 := ⟨f - 1, by omega⟩
    obtain ⟨k, sc⟩ := kv
    simp only [List.map_cons, resolveFields, resolveValue_scalar backing sc g st,
      ih (g + 1) st (by omega)]

theorem sizeV_scalar (sc : Scal) : sizeV (vOfScal sc) = 1 := by
  cases sc <;> rfl

theorem sizeFL_scalars (kvs : List (String × Scal)) :
    sizeFL (kvs.map (fun kv => (kv.1, vOfScal kv.2))) = 2 * kvs.length := by
  induction kvs with
  | nil => rfl
  | cons kv rest ih =>
    simp only [List.map_cons, sizeFL, sizeV_scalar, ih, List.length_cons]
    omega

/-- Any stored entity contributes its weight to the fresh-cache backing weight. -/
theorem backingWeight_lookup (b : List (String × PoolObject)) (r : String) (po : PoolObject)
    (h : alook r b = some po) : 2 + sizeFL po.fields ≤ backingWeight b [] := by
  induction b with
  | nil => simp [alook] at h
  | cons e rest ih =>
    obtain ⟨r', po'⟩ := e
    by_cases hr : r' = r
    · subst hr
      rw [alook_cons_self] at h
      injection h with h
      subst h
      simp only [backingWeight, alook, Option.isNone_none, if_true]
      omega
    · rw [alook_cons_ne _ _ hr] at h
      have := ih h
      simp only [backingWeight]
      omega

/-- The one-object input heap for a flat scalar object. -/
def flatHeap (kvs : List (String × Scal)) : Heap :=
  [(0, .obj (kvs.map (fun kv => (kv.1, jOfScal kv.2))))]

theorem identify_flat (kvs : List (String × Scal)) (sid : Scal) (ty istr : String)
    (hid : alook "id" kvs = some sid) (hty : alook TYPE_LABEL kvs = some (.str ty))
    (histr : idStrOf sid = some istr) :
    identify (kvs.map (fun kv => (kv.1, jOfScal kv.2))) = some (ty ++ ":" ++ istr) := by
  have h2 : alook TYPE_LABEL (kvs.map (fun kv => (kv.1, jOfScal kv.2))) = some (.str ty) := by
    rw [alook_map_snd, hty]; rfl
  cases sid with
  | str s =>
    injection histr with histr
    subst histr
    have h1 : alook "id" (kvs.map (fun kv => (kv.1, jOfScal kv.2))) = some (.str s) := by
      rw [alook_map_snd, hid]; rfl
    simp only [identify, h1, h2]
  | num n =>
    injection histr with histr
    subst histr
    have h1 : alook "id" (kvs.map (fun kv => (kv.1, jOfScal kv.2))) = some (.num n) := by
      rw [alook_map_snd, hid]; rfl
    simp only [identify, h1, h2]
  | bool b => exact Option.noConfusion histr
  | null => exact Option.noConfusion histr
  | undefined => exact Option.noConfusion histr

theorem flat_updateValue (kvs : List (String × Scal)) (sid : Scal) (ty istr : String)
    (gen : Nat) (backing0 : List (String × PoolObject)) (F : Nat)
    (hid : alook "id" kvs = some sid) (hty : alook TYPE_LABEL kvs = some (.str ty))
    (histr : idStrOf sid = some istr)
    (habs : alook (ty ++ ":" ++ istr) backing0 = none)
    (hF : kvs.length + 2 ≤ F) :
    updateValue (flatHeap kvs) gen (F + 1) (.node 0) ⟨[], [], backing0⟩ =
      (.ok (.obj [(REF_LABEL, .str (ty ++ ":" ++ istr))]),
       ⟨[0], [ty ++ ":" ++ istr],
        aset (ty ++ ":" ++ istr) ⟨gen, kvs.map (fun kv => (kv.1, vOfScal kv.2))⟩ backing0⟩) := by
  obtain ⟨G, rfl⟩ : ∃ G, F = G + 1 := ⟨F - 1, by omega⟩
  have hUF : updateFields [(0, HNode.obj (kvs.map (fun kv => (kv.1, jOfScal kv.2))))] gen G
      (kvs.map (fun kv => (kv.1, jOfScal kv.2)))
      ⟨[0], [ty ++ ":" ++ istr], backing0⟩ =
      (.ok (kvs.map (fun kv => (kv.1, vOfScal kv.2))),
       ⟨[0], [ty ++ ":" ++ istr], backing0⟩) :=
    updateFields_scalars _ gen kvs G _ (by omega)
  simp only [updateValue, elemK, Bool.false_eq_true, if_false, flatHeap, alook,
    eq_self_iff_true, if_true, identify_flat kvs sid ty istr hid hty histr,
    updatePoolObject, addRef, List.nil_append, habs, hUF,
    List.map_nil, Option.isNone_none, List.filter_true]

/-- C1: writing an object with a valid identity whose fields are all
scalars, into a pool that does not yet hold that identity, and then reading
the derived ref `"type:id"`, returns a mapping equal to the object —
including the `id` and `__type` fields themselves. -/
theorem round_trip_flat_scalar (kvs : List (String × Scal)) (sid : Scal) (ty istr : String)
    (pool : Pool)
    (hid : alook "id" kvs = some sid)
    (hty : alook TYPE_LABEL kvs = some (.str ty))
    (histr : idStrOf sid = some istr)
    (habs : alook (ty ++ ":" ++ istr) pool.backing = none) :
    (write (flatHeap kvs) [.node 0] pool).1 = .ok () ∧
    readFields (write (flatHeap kvs) [.node 0] pool).2.1 (ty ++ ":" ++ istr) =
      some (kvs.map (fun kv => (kv.1, vOfScal kv.2))) := by
  have hwf : writeFuel (flatHeap kvs) = 2 * kvs.length + 4 + 1 := by
    simp only [writeFuel, flatHeap, heapWeight, childVals, elemK, Bool.false_eq_true,
      if_false, List.length_map]
    omega
  have hUV := flat_updateValue kvs sid ty istr pool.generation pool.backing
    (2 * kvs.length + 4) hid hty histr habs (by omega)
  have hUI : updateItems (flatHeap kvs) pool.generation (writeFuel (flatHeap kvs))
      [.node 0] ⟨[], [], pool.backing⟩ =
      (.ok (), ⟨[0], [ty ++ ":" ++ istr],
        aset (ty ++ ":" ++ istr)
          ⟨pool.generation, kvs.map (fun kv => (kv.1, vOfScal kv.2))⟩ pool.backing⟩) := by
    rw [hwf]
    simp only [updateItems, hUV]
  have hW : write (flatHeap kvs) [.node 0] pool =
      (.ok (),
       { pool with
          backing := aset (ty ++ ":" ++ istr)
            ⟨pool.generation, kvs.map (fun kv => (kv.1, vOfScal kv.2))⟩ pool.backing,
          generation := pool.generation + 1 },
       (notify
         { pool with
            backing := aset (ty ++ ":" ++ istr)
              ⟨pool.generation, kvs.map (fun kv => (kv.1, vOfScal kv.2))⟩ pool.backing,
            generation := pool.generation + 1 }
         [ty ++ ":" ++ istr] ⟨[], []⟩).1) := by
    simp only [write, hUI]
  rw [hW]
  refine ⟨rfl, ?_⟩
  have hbk : alook (ty ++ ":" ++ istr)
      (aset (ty ++ ":" ++ istr)
        ⟨pool.generation, kvs.map (fun kv => (kv.1, vOfScal kv.2))⟩ pool.backing) =
      some ⟨pool.generation, kvs.map (fun kv => (kv.1, vOfScal kv.2))⟩ :=
    alook_aset_self _ _ _
  have hge := backingWeight_lookup _ _ _ hbk
  rw [sizeFL_scalars] at hge
  have hRF := resolveFields_scalars
    (aset (ty ++ ":" ++ istr)
      ⟨pool.generation, kvs.map (fun kv => (kv.1, vOfScal kv.2))⟩ pool.backing)
    kvs
    (backingWeight
      (aset (ty ++ ":" ++ istr)
        ⟨pool.generation, kvs.map (fun kv => (kv.1, vOfScal kv.2))⟩ pool.backing) [])
    ⟨[(ty ++ ":" ++ istr, 0)], [[]]⟩ (by omega)
  show readFields _ _ = _
  rw [readFields]
  have hread : read
      { pool with
         backing := aset (ty ++ ":" ++ istr)
           ⟨pool.generation, kvs.map (fun kv => (kv.1, vOfScal kv.2))⟩ pool.backing,
         generation := pool.generation + 1 }
      (ty ++ ":" ++ istr) =
      (.ok (some (.ent 0)),
       ⟨[(ty ++ ":" ++ istr, 0)], [kvs.map (fun kv => (kv.1, vOfScal kv.2))]⟩) := by
    show resolvePoolObject _ (poolFuel _) _ ⟨[], []⟩ = _
    rw [show poolFuel
        { pool with
           backing := aset (ty ++ ":" ++ istr)
             ⟨pool.generation, kvs.map (fun kv => (kv.1, vOfScal kv.2))⟩ pool.backing,
           generation := pool.generation + 1 } =
        backingWeight
          (aset (ty ++ ":" ++ istr)
            ⟨pool.generation, kvs.map (fun kv => (kv.1, vOfScal kv.2))⟩ pool.backing) [] + 1
      from rfl]
    simp only [resolvePoolObject, alook, hbk, List.length_nil, List.nil_append, hRF,
      List.set_cons_zero]
  rw [hread]
  rfl

/-- Witness for C1: the flat user object round-trips through the pool. -/
theorem round_trip_flat_scalar_witness :
    (write (flatHeap [("id", .num 1), (TYPE_LABEL, .str "user"), ("name", .str "Alice")])
        [.node 0] poolEmpty).1 = .ok () ∧
    readFields (write (flatHeap [("id", .num 1), (TYPE_LABEL, .str "user"),
        ("name", .str "Alice")]) [.node 0] poolEmpty).2.1 ("user" ++ ":" ++ "1") =
      some [("id", .num 1), (TYPE_LABEL, .str "user"), ("name", .str "Alice")] :=
  round_trip_flat_scalar
    [("id", .num 1), (TYPE_LABEL, .str "user"), ("name", .str "Alice")]
    (.num 1) "user" "1" poolEmpty rfl rfl rfl rfl

/-- First write of the C2 scenario: `{id:1, __type:user, name:Alice}`. -/
def heapC2a : Heap := [(0, .obj [("id", .num 1), (TYPE_LABEL, .str "user"), ("name", .str "Alice")])]

/-- Second write of the C2 scenario: `{id:1, __type:user, age:30}`. -/
def heapC2b : Heap := [(0, .obj [("id", .num 1), (TYPE_LABEL, .str "user"), ("age", .num 30)])]

/-- C2: writing `{id:1,type:user,name:Alice}` and then `{id:1,type:user,age:30}`
merges rather than replaces: `read(user:1)` holds both `name:Alice` and
`age:30` — the second write shallow-merges its normalized fields over the
existing entity's fields, new keys winning and unspecified keys retained. -/
theorem merge_not_replace :
    readFields (write heapC2b [.node 0]
        (write heapC2a [.node 0] poolEmpty).2.1).2.1 "user:1" =
      some [("id", .num 1), (TYPE_LABEL, .str "user"), ("name", .str "Alice"),
        ("age", .num 30)] ∧
    alook "name" ((readFields (write heapC2b [.node 0]
        (write heapC2a [.node 0] poolEmpty).2.1).2.1 "user:1").getD []) =
      some (.str "Alice") ∧
    alook "age" ((readFields (write heapC2b [.node 0]
        (write heapC2a [.node 0] poolEmpty).2.1).2.1 "user:1").getD []) =
      some (.num 30) :=
  ⟨rfl, rfl, rfl⟩

/-! ### The notification pass -/

/-- Modelled from the spec's description of the Notifier: process exactly
the touched refs that have a non-empty listener set; resolve each such ref
once against the shared resolution cache; skip it when resolution yields
missing; otherwise invoke every registered listener with the resolved
value. -/
def notifySpecRun (pool : Pool) : List String → RSt → List (Nat × Val) × RSt
  | [], st => ([], st)
  | ref :: rest, st =>
    let ls := (alook ref pool.listeners).getD []
    match resolvePoolObject pool.backing (poolFuel pool) ref st with
    | (.ok (some v), st1) =>
      let r := notifySpecRun pool rest st1
      (ls.map (fun l => (l, v)) ++ r.1, r.2)
    | (.ok none, st1) => notifySpecRun pool rest st1
    | (.error _, st1) => notifySpecRun pool rest st1

/-- Modelled from the spec: the notification pass over a batch first
restricts to refs with a non-empty listener set (refs without listeners are
never resolved), then runs the per-ref resolution/invocation loop with one
shared resolution cache. -/
def notifySpec (pool : Pool) (refs : List String) (st : RSt) : List (Nat × Val) × RSt :=
  notifySpecRun pool
    (refs.filter (fun r => !((alook r pool.listeners).getD []).isEmpty)) st

/-- C9: the source's notification pass coincides with the spec's
description: refs with no (or an empty) listener set are skipped without
being resolved, every other touched ref is resolved exactly once against the
cache shared across the pass, missing resolutions are skipped, and every
registered listener of a ref is invoked with the resolved value. -/
theorem notify_eq_notifySpec (pool : Pool) :
    ∀ (refs : List String) (st : RSt), notify pool refs st = notifySpec pool refs st := by
  intro refs
  induction refs with
  | nil =>
    intro st
    rfl
  | cons ref rest ih =>
    intro st
    rcases hl : alook ref pool.listeners with _ | ls
    · simp only [notify, hl, notifySpec, List.filter_cons, Option.getD_none,
        List.isEmpty_nil, Bool.not_true, Bool.false_eq_true, if_false]
      exact ih st
    · by_cases he : ls.isEmpty
      · simp only [notify, hl, he, if_true, notifySpec, List.filter_cons,
          Option.getD_some, Bool.not_true, Bool.false_eq_true, if_false]
        exact ih st
      · have he' : ls.isEmpty = false := by
          revert he; cases ls.isEmpty <;> simp
        simp only [notify, hl, he', Bool.false_eq_true, if_false, notifySpec,
          List.filter_cons, Option.getD_some, Bool.not_false, if_true, notifySpecRun]
        rcases hres : resolvePoolObject pool.backing (poolFuel pool) ref st with ⟨res, st1⟩
        cases res with
        | ok ov =>
          cases ov with
          | some v =>
            have ihx := ih st1
            simp only [notifySpec] at ihx
            simp only [ihx]
          | none =>
            have ihx := ih st1
            simp only [notifySpec] at ihx
            exact ihx
        | error e =>
          have ihx := ih st1
          simp only [notifySpec] at ihx
          exact ihx

end Droplet
